import Mathlib

/-!
Verification of the insertion-based scheduling core of `groupn.py`
(class `CompanyZ6`): the single insertion pass, the multi-start
estimation path, the LNS refinement, the post-auction orchestrator and
the adaptive shuffle count.

The external "Schedule" collaborator (the mable library) is modelled at
its interface boundary: a type `S` of schedule values together with the
four operations the core calls (`get_insertion_points`,
`add_transportation`, `verify_schedule`, `completion_time`), and a
distance oracle.  `copy()` is value duplication per the collaborator
contract, so in the pure model it is the identity; a store-based model
making aliasing explicit appears further below for the frame claims.
Scalars (times, consumptions, costs) are modelled as `Int`.
-/

/-- A transportation request, as consumed by the scheduling core:
origin/destination ports, cargo type, amount and a time window. -/
structure Trade where
  tid : Nat
  origin_port : Nat
  destination_port : Nat
  cargo_type : Nat
  amount : Int
  tw_start : Int
  tw_end : Int
deriving DecidableEq, Repr

/-- A vessel handle: identity, current location, speed, its owned
schedule (of type `σ`: a schedule value in the pure model, a store
reference in the store model) and the consumption/time functions the
cost calculation calls. -/
structure VesselG (σ : Type) where
  vid : Nat
  location : Nat
  speed : Int
  schedule : σ
  get_travel_time : Int → Int
  get_ballast_consumption : Int → Int → Int
  get_loading_time : Nat → Int → Int
  get_loading_consumption : Int → Int
  get_laden_consumption : Int → Int → Int

/-- The Schedule collaborator interface (spec section 3): insertion-point
enumeration, candidate construction, feasibility check and completion
time. -/
structure SchedOps (S : Type) where
  get_insertion_points : S → List Nat
  add_transportation : S → Trade → Nat → Nat → S
  verify_schedule : S → Bool
  completion_time : S → Int

/-- The external environment of the core: the Schedule collaborator
operations and the distance oracle `headquarters.get_network_distance`. -/
structure Env (S : Type) where
  ops : SchedOps S
  get_network_distance : Nat → Nat → Int

/- ------------------------------------------------------------------
Association lists standing for Python dicts keyed on object identity
(vessels are keyed by `vid`, trades by their full value).  `setA`
updates in place or appends, matching insertion-order-preserving dict
semantics; `valuesA` is `dict.values()`.
------------------------------------------------------------------ -/

def findA {κ α : Type} [DecidableEq κ] : List (κ × α) → κ → Option α
  | [], _ => none
  | (k, v) :: rest, key => if k = key then some v else findA rest key

def setA {κ α : Type} [DecidableEq κ] : List (κ × α) → κ → α → List (κ × α)
  | [], key, val => [(key, val)]
  | (k, v) :: rest, key, val =>
      if k = key then (key, val) :: rest else (k, v) :: setA rest key val

def valuesA {κ α : Type} (l : List (κ × α)) : List α := l.map Prod.snd

/-- Boolean membership via decidable equality. -/
def memB {α : Type} [DecidableEq α] (a : α) (l : List α) : Bool :=
  l.any (fun x => decide (x = a))

/-- Boolean set equality of two lists, as in Python `set(a) == set(b)`. -/
def memEq {α : Type} [DecidableEq α] (a b : List α) : Bool :=
  a.all (fun t => memB t b) && b.all (fun t => memB t a)

/- ------------------------------------------------------------------
The single insertion pass (`_single_insertion_pass`, groupn.py 227-322).
------------------------------------------------------------------ -/

/-- The pair enumeration `for i, pickup in enumerate(pts): for dropoff
in pts[i:]`: every `(pickup, dropoff)` with the dropoff at or after the
pickup in position order (the pickup position itself included). -/
def insertionPairs : List Nat → List (Nat × Nat)
  | [] => []
  | p :: rest => (p :: rest).map (fun d => (p, d)) ++ insertionPairs rest

/-- One step of the best-insertion scan for a fixed vessel: try the
candidate at one `(pickup, dropoff)` pair, discard it if
`verify_schedule` fails, otherwise keep it when it is the first feasible
candidate or strictly beats the current best on `completion_time`. -/
def bestStep {S : Type} (E : Env S) (base : S) (t : Trade)
    (best : Option S) (p : Nat × Nat) : Option S :=
  let test := E.ops.add_transportation base t p.1 p.2
  if E.ops.verify_schedule test = false then best
  else
    match best with
    | none => some test
    | some b =>
        if E.ops.completion_time test < E.ops.completion_time b then some test
        else some b

/-- The inner double loop of `_single_insertion_pass`: scan every
insertion pair of `base` and return the feasible candidate with minimum
completion time (first found on ties), or `none`. -/
def bestInsertion {S : Type} (E : Env S) (base : S) (t : Trade) : Option S :=
  (insertionPairs (E.ops.get_insertion_points base)).foldl (bestStep E base t) none

/-- The mutable locals of `_single_insertion_pass`, plus a ghost event
log recording each `(vessel, trade)` assignment in order. -/
structure PassSt (S : Type) where
  vessel_last_port : List (Nat × Nat)
  schedules : List (Nat × S)
  scheduled_trades : List Trade
  costs : List (Trade × Int)
  trade_to_vessel : List (Trade × Nat)
  events : List (VesselG S × Trade)

def initPassSt (S : Type) : PassSt S :=
  { vessel_last_port := [], schedules := [], scheduled_trades := [],
    costs := [], trade_to_vessel := [], events := [] }

/-- The cost expression of groupn.py 284-313 for one assignment of
`t` to `v` given the vessel's prior location `prev_loc`: ballast
consumption for the empty leg, laden consumption for the loaded leg,
and loading consumption charged twice (unloading is mirrored). -/
def assignmentCost {S σ : Type} (E : Env S) (v : VesselG σ) (prev_loc : Nat)
    (t : Trade) : Int :=
  let dist_empty := E.get_network_distance prev_loc t.origin_port
  let t_empty := v.get_travel_time dist_empty
  let c_empty := v.get_ballast_consumption t_empty v.speed
  let load_t := v.get_loading_time t.cargo_type t.amount
  let load_c := v.get_loading_consumption load_t
  let unload_c := v.get_loading_consumption load_t
  let dist_loaded := E.get_network_distance t.origin_port t.destination_port
  let t_loaded := v.get_travel_time dist_loaded
  let c_loaded := v.get_laden_consumption t_loaded v.speed
  c_empty + c_loaded + load_c + unload_c

/-- The body of the vessel loop (groupn.py 248-316) for one trade and
one vessel: find the best feasible insertion into the vessel's working
schedule (the schedule built during this pass if present, else the
vessel's own schedule); on success record the schedule, the trade, the
assigned vessel, the cost at the tracked prior location, and update the
vessel's last known location to the trade's destination. -/
def tryVessel {S : Type} (E : Env S) (t : Trade) (st : PassSt S)
    (v : VesselG S) : PassSt S :=
  let current := (findA st.schedules v.vid).getD v.schedule
  match bestInsertion E current t with
  | none => st
  | some best =>
      let prev_loc := (findA st.vessel_last_port v.vid).getD v.location
      { vessel_last_port := setA st.vessel_last_port v.vid t.destination_port,
        schedules := setA st.schedules v.vid best,
        scheduled_trades := st.scheduled_trades ++ [t],
        costs := setA st.costs t (assignmentCost E v prev_loc t),
        trade_to_vessel := setA st.trade_to_vessel t v.vid,
        events := st.events ++ [(v, t)] }

/-- The trade loop body: try every vessel of the fleet in its fixed
iteration order (no early exit appears in the source). -/
def passTrade {S : Type} (E : Env S) (fleet : List (VesselG S))
    (st : PassSt S) (t : Trade) : PassSt S :=
  fleet.foldl (tryVessel E t) st

/-- The whole pass as a fold over the given trade order. -/
def runPass {S : Type} (E : Env S) (fleet : List (VesselG S))
    (trades : List Trade) : PassSt S :=
  trades.foldl (passTrade E fleet) (initPassSt S)

/-- The `ScheduleProposal` value returned by the pass: vessel-id to
schedule map, scheduled trade list, trade to cost map. -/
structure ScheduleProposal (S : Type) where
  schedules : List (Nat × S)
  scheduled_trades : List Trade
  costs : List (Trade × Int)
deriving DecidableEq

/-- `_single_insertion_pass(trades)`: the proposal projected out of the
final pass state. -/
def singleInsertionPass {S : Type} (E : Env S) (fleet : List (VesselG S))
    (trades : List Trade) : ScheduleProposal S :=
  let st := runPass E fleet trades
  { schedules := st.schedules, scheduled_trades := st.scheduled_trades,
    costs := st.costs }

/- ------------------------------------------------------------------
Multi-start configuration (`_adaptive_shuffle_count`, groupn.py 70-93)
and the shipped constants (groupn.py 21-26).
------------------------------------------------------------------ -/

def MAX_SHUFFLES : Nat := 1
def LNS_ITERATIONS : Nat := 10
def LNS_REMOVALS : Nat := 2

/-- `_adaptive_shuffle_count(n_trades)` with the class constant
`MAX_SHUFFLES` abstracted as `kmax`; `//` is floor division. -/
def adaptiveShuffleCount (kmax n_trades : Nat) : Nat :=
  if n_trades ≤ 10 then kmax
  else if n_trades ≤ 25 then max 3 (kmax / 2)
  else if n_trades ≤ 50 then 2
  else 1

/- ------------------------------------------------------------------
The orchestrator `_propose_schedules_internal` (groupn.py 100-171) and
the LNS refinement `_apply_lns` (groupn.py 174-220).  The pseudorandom
source is made explicit: `shuffles i` is the permutation produced by
`random.shuffle` in trial `i` of the multi-start loop, and
`sample i cur k` the list produced by `random.sample(cur, k)` in LNS
iteration `i`.
------------------------------------------------------------------ -/

/-- The multi-start score (groupn.py 162-165):
`-1000 * len(scheduled_trades) + sum of completion times over the
schedule map's values`. -/
def mssScore {S : Type} (E : Env S) (p : ScheduleProposal S) : Int :=
  -1000 * (p.scheduled_trades.length : Int) +
    ((valuesA p.schedules).map E.ops.completion_time).sum

/-- The pre-auction branch of `_propose_schedules_internal`
(groupn.py 148-171): run the pass on `K` shuffled orders, keep the
result with the strictly lowest score (`None` only when `K = 0`). -/
def preAuction {S : Type} (E : Env S) (fleet : List (VesselG S)) (kmax : Nat)
    (trades : List Trade) (shuffles : Nat → List Trade) :
    Option (ScheduleProposal S) :=
  let K := adaptiveShuffleCount kmax trades.length
  let best := (List.range K).foldl
    (fun best i =>
      let result := singleInsertionPass E fleet (shuffles i)
      let score := mssScore E result
      match best with
      | none => some (result, score)
      | some (br, bs) => if score < bs then some (result, score) else some (br, bs))
    none
  best.map Prod.fst

/-- The LNS score `schedule_score` (groupn.py 189-190): total
completion time over the schedule map's values, with no trade-count
term. -/
def lnsScore {S : Type} (E : Env S) (p : ScheduleProposal S) : Int :=
  ((valuesA p.schedules).map E.ops.completion_time).sum

/-- The destroy/repair loop of `_apply_lns` (groupn.py 194-218),
structurally recursive on the remaining iteration count.  `req` is the
required list (`required = set(...)` compared via `memEq`), `i` the
iteration index feeding the sampling oracle, `R` the incumbent,
`cur` the working `current_trades` list and `best` the incumbent
score. -/
def lnsLoop {S : Type} (E : Env S) (fleet : List (VesselG S)) (removals : Nat)
    (sample : Nat → List Trade → Nat → List Trade) (req : List Trade) :
    Nat → Nat → ScheduleProposal S → List Trade → Int → ScheduleProposal S
  | 0, _, R, _, _ => R
  | fuel + 1, i, R, cur, best =>
      if cur.isEmpty then R
      else
        let k := min removals cur.length
        let removed := sample i cur k
        let kept := cur.filter (fun t => !memB t removed)
        let candidate := singleInsertionPass E fleet (kept ++ removed)
        if memEq candidate.scheduled_trades req = false then
          lnsLoop E fleet removals sample req fuel (i + 1) R cur best
        else
          let cand_score := lnsScore E candidate
          if cand_score < best then
            lnsLoop E fleet removals sample req fuel (i + 1) candidate
              candidate.scheduled_trades cand_score
          else
            lnsLoop E fleet removals sample req fuel (i + 1) R cur best

/-- `_apply_lns(initial_result)` (groupn.py 174-220). -/
def applyLns {S : Type} (E : Env S) (fleet : List (VesselG S))
    (iterations removals : Nat)
    (sample : Nat → List Trade → Nat → List Trade)
    (initial_result : ScheduleProposal S) : ScheduleProposal S :=
  lnsLoop E fleet removals sample initial_result.scheduled_trades iterations 0
    initial_result initial_result.scheduled_trades (lnsScore E initial_result)

/-- The post-auction branch of `_propose_schedules_internal`
(groupn.py 116-142): deterministic pass on the given order; if any won
trade is missing, retry on the reversed order; if the fallback covers
everything adopt it, otherwise return the base result and skip LNS;
on a full-coverage base apply LNS when enabled. -/
def postAuction {S : Type} (E : Env S) (fleet : List (VesselG S))
    (lns_enabled : Bool) (iterations removals : Nat)
    (sample : Nat → List Trade → Nat → List Trade)
    (trades : List Trade) : ScheduleProposal S :=
  let base_result := singleInsertionPass E fleet trades
  if memEq base_result.scheduled_trades trades = false then
    let fallback := singleInsertionPass E fleet trades.reverse
    if memEq fallback.scheduled_trades trades then
      if lns_enabled then applyLns E fleet iterations removals sample fallback
      else fallback
    else base_result
  else
    if lns_enabled then applyLns E fleet iterations removals sample base_result
    else base_result

/- ------------------------------------------------------------------
Theorems for claims C7 and C10.
------------------------------------------------------------------ -/

/-- Claim C7: `adaptiveShuffleCount(n)` returns `Kmax` for every
`n ≤ 10`, `max(3, Kmax/2)` for every `11 ≤ n ≤ 25`, `2` for every
`26 ≤ n ≤ 50`, and `1` for every `n > 50`. -/
theorem c7_adaptive_shuffle_cases (kmax n : Nat) :
    (n ≤ 10 → adaptiveShuffleCount kmax n = kmax) ∧
    (11 ≤ n → n ≤ 25 → adaptiveShuffleCount kmax n = max 3 (kmax / 2)) ∧
    (26 ≤ n → n ≤ 50 → adaptiveShuffleCount kmax n = 2) ∧
    (50 < n → adaptiveShuffleCount kmax n = 1) := by
  unfold adaptiveShuffleCount
  refine ⟨fun h => by simp [h], fun h1 h2 => ?_, fun h1 h2 => ?_, fun h => ?_⟩
  · rw [if_neg (by omega), if_pos h2]
  · rw [if_neg (by omega), if_neg (by omega), if_pos h2]
  · rw [if_neg (by omega), if_neg (by omega), if_neg (by omega)]

theorem c7_adaptive_shuffle_cases_witness :
    adaptiveShuffleCount 4 8 = 4 ∧ adaptiveShuffleCount 4 12 = max 3 (4 / 2) ∧
    adaptiveShuffleCount 4 30 = 2 ∧ adaptiveShuffleCount 4 60 = 1 :=
  ⟨(c7_adaptive_shuffle_cases 4 8).1 (by decide),
   (c7_adaptive_shuffle_cases 4 12).2.1 (by decide) (by decide),
   (c7_adaptive_shuffle_cases 4 30).2.2.1 (by decide) (by decide),
   (c7_adaptive_shuffle_cases 4 60).2.2.2 (by decide)⟩

/-- Claim C10: with the shipped `MAX_SHUFFLES = 1`, the adaptive count
is 1 for every `n ≤ 10` but 3 for every `11 ≤ n ≤ 25`, so it is not
monotone non-increasing in the trade count. -/
theorem c10_shipped_not_monotone :
    (∀ n, n ≤ 10 → adaptiveShuffleCount MAX_SHUFFLES n = 1) ∧
    (∀ n, 11 ≤ n → n ≤ 25 → adaptiveShuffleCount MAX_SHUFFLES n = 3) ∧
    ¬ (∀ m n, m ≤ n → adaptiveShuffleCount MAX_SHUFFLES n ≤
        adaptiveShuffleCount MAX_SHUFFLES m) := by
  refine ⟨fun n h => ?_, fun n h1 h2 => ?_, fun h => ?_⟩
  · simpa [MAX_SHUFFLES] using (c7_adaptive_shuffle_cases 1 n).1 h
  · have := (c7_adaptive_shuffle_cases 1 n).2.1 h1 h2
    simpa [MAX_SHUFFLES] using this
  · have h5 : adaptiveShuffleCount MAX_SHUFFLES 5 = 1 := by decide
    have h15 : adaptiveShuffleCount MAX_SHUFFLES 15 = 3 := by decide
    have := h 5 15 (by omega)
    omega

theorem c10_shipped_not_monotone_witness :
    adaptiveShuffleCount MAX_SHUFFLES 5 = 1 ∧
    adaptiveShuffleCount MAX_SHUFFLES 15 = 3 :=
  ⟨c10_shipped_not_monotone.1 5 (by decide),
   c10_shipped_not_monotone.2.1 15 (by decide) (by decide)⟩

/- ------------------------------------------------------------------
Concrete instantiations of the Schedule collaborator, used to evaluate
the embedded code on explicit inputs.  A schedule value is the list of
trades it carries, insertion points are the positions 0..len, and
`add_transportation` inserts the trade at the pickup position
(clamping past the end, as `list.insert` does).
------------------------------------------------------------------ -/

def insertAt {α : Type} : Nat → α → List α → List α
  | 0, a, l => a :: l
  | _ + 1, a, [] => [a]
  | n + 1, a, x :: xs => x :: insertAt n a xs

/-- A vessel over list-schedules with identity arithmetic for times and
consumptions. -/
def mkVessel (i loc : Nat) : VesselG (List Trade) :=
  { vid := i, location := loc, speed := 1, schedule := [],
    get_travel_time := fun d => d,
    get_ballast_consumption := fun t _ => t,
    get_loading_time := fun _ _ => 1,
    get_loading_consumption := fun t => t,
    get_laden_consumption := fun t _ => t }

/-- Collaborator where any schedule carrying at most one trade is
feasible: with two empty vessels, both can feasibly take a single
trade. -/
def envA : Env (List Trade) :=
  { ops :=
      { get_insertion_points := fun s => List.range (s.length + 1),
        add_transportation := fun s t pu _ => insertAt pu t s,
        verify_schedule := fun s => decide (s.length ≤ 1),
        completion_time := fun s => (s.length : Int) },
    get_network_distance := fun _ _ => 1 }

def tA : Trade :=
  { tid := 0, origin_port := 1, destination_port := 2, cargo_type := 0,
    amount := 1, tw_start := 0, tw_end := 10 }

def fleetA : List (VesselG (List Trade)) := [mkVessel 1 0, mkVessel 2 0]

/- ------------------------------------------------------------------
Claims C1 and C2: the vessel loop of `_single_insertion_pass` has no
break after a successful assignment, so a trade is inserted into the
working schedule of EVERY vessel that yields a feasible candidate, and
is appended to `scheduled_trades` once per such vessel.
------------------------------------------------------------------ -/

/-- Claim C1 (code evaluation): with two empty vessels that can both
feasibly carry the single input trade, the pass inserts the trade into
both vessels' schedules and lists it twice in `scheduled_trades` — the
trade does not appear in exactly one vessel's schedule. -/
theorem c1_double_assignment_eval :
    (singleInsertionPass envA fleetA [tA]).scheduled_trades = [tA, tA] ∧
    findA (singleInsertionPass envA fleetA [tA]).schedules 1 = some [tA] ∧
    findA (singleInsertionPass envA fleetA [tA]).schedules 2 = some [tA] := by
  decide

/-- Claim C2 (code evaluation): vessel 1 is the first vessel in fleet
order with a feasible insertion, yet the later vessel 2 is also
assigned the trade (its schedule receives the trade and
`_trade_to_vessel` ends up pointing at vessel 2, the last feasible
vessel, not the first). -/
theorem c2_later_vessel_assigned_eval :
    findA (singleInsertionPass envA fleetA [tA]).schedules 1 = some [tA] ∧
    findA (singleInsertionPass envA fleetA [tA]).schedules 2 = some [tA] ∧
    findA (runPass envA fleetA [tA]).trade_to_vessel tA = some 2 := by
  decide

/- ------------------------------------------------------------------
Claim C3: the both-fail branch of the post-auction path.
------------------------------------------------------------------ -/

def t1 : Trade :=
  { tid := 1, origin_port := 1, destination_port := 2, cargo_type := 0,
    amount := 1, tw_start := 0, tw_end := 10 }

def t2 : Trade :=
  { tid := 2, origin_port := 2, destination_port := 3, cargo_type := 0,
    amount := 1, tw_start := 0, tw_end := 10 }

def t3 : Trade :=
  { tid := 3, origin_port := 3, destination_port := 4, cargo_type := 0,
    amount := 1, tw_start := 0, tw_end := 10 }

/-- Feasible trade-id sequences for the C3 scenario: `t1` alone, `t3`
alone, or `t2` and `t3` together; never `t1` with anything else. -/
def okC : List Nat → Bool
  | [] => true
  | [1] => true
  | [3] => true
  | [2, 3] => true
  | [3, 2] => true
  | _ => false

/-- Collaborator under which the forward order `[t1, t2, t3]` schedules
only `t1` while the reversed order schedules `t3` and `t2`. -/
def envC : Env (List Trade) :=
  { ops :=
      { get_insertion_points := fun s => List.range (s.length + 1),
        add_transportation := fun s t pu _ => insertAt pu t s,
        verify_schedule := fun s => okC (s.map Trade.tid),
        completion_time := fun s => (s.length : Int) },
    get_network_distance := fun _ _ => 1 }

def fleetC : List (VesselG (List Trade)) := [mkVessel 1 0]

/-- Claim C3 (counterexample): both the base and the fallback pass miss
required trades, the fallback pass schedules strictly more trades (and
scores strictly better), yet the orchestrator returns the base pass
result — not the best partial result across the two passes. -/
theorem c3_counterexample :
    postAuction envC fleetC true LNS_ITERATIONS LNS_REMOVALS
        (fun _ _ _ => []) [t1, t2, t3] =
      singleInsertionPass envC fleetC [t1, t2, t3] ∧
    (postAuction envC fleetC true LNS_ITERATIONS LNS_REMOVALS
        (fun _ _ _ => []) [t1, t2, t3]).scheduled_trades = [t1] ∧
    (singleInsertionPass envC fleetC [t3, t2, t1]).scheduled_trades = [t3, t2] ∧
    mssScore envC (singleInsertionPass envC fleetC [t3, t2, t1]) <
      mssScore envC (postAuction envC fleetC true LNS_ITERATIONS LNS_REMOVALS
        (fun _ _ _ => []) [t1, t2, t3]) := by
  decide

/-- Claim C3 (amended): when both the forward-order base pass and the
reversed-order fallback pass fail to schedule every required trade, the
orchestrator does not raise and skips LNS, but it returns the
forward-order base pass result unchanged, regardless of how the
fallback result compares. -/
theorem c3_both_fail_returns_base {S : Type} (E : Env S)
    (fleet : List (VesselG S)) (lns : Bool) (iters rem : Nat)
    (sample : Nat → List Trade → Nat → List Trade) (trades : List Trade)
    (h1 : memEq (singleInsertionPass E fleet trades).scheduled_trades trades
      = false)
    (h2 : memEq (singleInsertionPass E fleet trades.reverse).scheduled_trades
      trades = false) :
    postAuction E fleet lns iters rem sample trades =
      singleInsertionPass E fleet trades := by
  unfold postAuction
  simp [h1, h2]

theorem c3_both_fail_returns_base_witness :
    postAuction envC fleetC true LNS_ITERATIONS LNS_REMOVALS
        (fun _ _ _ => []) [t1, t2, t3] =
      singleInsertionPass envC fleetC [t1, t2, t3] :=
  c3_both_fail_returns_base envC fleetC true LNS_ITERATIONS LNS_REMOVALS
    (fun _ _ _ => []) [t1, t2, t3] (by decide) (by decide)

/- ------------------------------------------------------------------
Claim C4: the LNS hard invariant.
------------------------------------------------------------------ -/

theorem memB_iff {α : Type} [DecidableEq α] (a : α) (l : List α) :
    memB a l = true ↔ a ∈ l := by
  simp [memB]

theorem memEq_iff {α : Type} [DecidableEq α] (a b : List α)
    (h : memEq a b = true) : ∀ x, x ∈ a ↔ x ∈ b := by
  unfold memEq at h
  rw [Bool.and_eq_true, List.all_eq_true, List.all_eq_true] at h
  intro x
  exact ⟨fun hx => (memB_iff x b).1 (h.1 x hx),
         fun hx => (memB_iff x a).1 (h.2 x hx)⟩

/-- Invariant of the destroy/repair loop: the incumbent always covers
exactly the required set, and it is either still the initial result or
strictly better on the LNS score. -/
theorem lnsLoop_inv {S : Type} (E : Env S) (fleet : List (VesselG S))
    (removals : Nat) (sample : Nat → List Trade → Nat → List Trade)
    (req : List Trade) (init : ScheduleProposal S) :
    ∀ (fuel i : Nat) (R : ScheduleProposal S) (cur : List Trade),
      (∀ x, x ∈ R.scheduled_trades ↔ x ∈ req) →
      (R = init ∨ lnsScore E R < lnsScore E init) →
      (∀ x, x ∈ (lnsLoop E fleet removals sample req fuel i R cur
          (lnsScore E R)).scheduled_trades ↔ x ∈ req) ∧
      (lnsLoop E fleet removals sample req fuel i R cur (lnsScore E R) = init ∨
        lnsScore E (lnsLoop E fleet removals sample req fuel i R cur
          (lnsScore E R)) < lnsScore E init) := by
  intro fuel
  induction fuel with
  | zero =>
      intro i R cur h1 h2
      exact ⟨h1, h2⟩
  | succ n ih =>
      intro i R cur h1 h2
      simp only [lnsLoop]
      split
      · exact ⟨h1, h2⟩
      · split
        · exact ih (i + 1) R cur h1 h2
        · rename_i hmem
          split
          · rename_i hlt
            have hm : memEq (singleInsertionPass E fleet
                ((cur.filter (fun t => !memB t (sample i cur
                  (min removals cur.length)))) ++
                  sample i cur (min removals cur.length))).scheduled_trades req
                = true := by
              cases h' : memEq (singleInsertionPass E fleet
                  ((cur.filter (fun t => !memB t (sample i cur
                    (min removals cur.length)))) ++
                    sample i cur (min removals cur.length))).scheduled_trades
                  req
              · exact absurd h' hmem
              · rfl
            have hset := memEq_iff _ _ hm
            have hscore : lnsScore E (singleInsertionPass E fleet
                ((cur.filter (fun t => !memB t (sample i cur
                  (min removals cur.length)))) ++
                  sample i cur (min removals cur.length))) <
                lnsScore E init := by
              rcases h2 with h2 | h2
              · rw [← h2]; exact hlt
              · exact lt_trans hlt h2
            exact ih (i + 1) _ _ hset (Or.inr hscore)
          · exact ih (i + 1) R cur h1 h2

/-- Claim C4: for every initial result and every sequence of removal
choices, the scheduled set of `_apply_lns`'s output exactly equals the
scheduled set of the initial result (the required set), and the output
is either the initial result unchanged or a candidate with strictly
lower total completion time. -/
theorem c4_lns_preserves_required {S : Type} (E : Env S)
    (fleet : List (VesselG S)) (iterations removals : Nat)
    (sample : Nat → List Trade → Nat → List Trade)
    (init : ScheduleProposal S) :
    (∀ x, x ∈ (applyLns E fleet iterations removals sample
        init).scheduled_trades ↔ x ∈ init.scheduled_trades) ∧
    (applyLns E fleet iterations removals sample init = init ∨
      lnsScore E (applyLns E fleet iterations removals sample init) <
        lnsScore E init) := by
  unfold applyLns
  exact lnsLoop_inv E fleet removals sample init.scheduled_trades init
    iterations 0 init init.scheduled_trades (fun x => Iff.rfl) (Or.inl rfl)

/- ------------------------------------------------------------------
Claim C5: the pre-auction multi-start loop returns the first-found
lowest-scoring trial.  `firstMin` is the specification-side selector:
keep the head unless the selection over the tail is strictly better.
------------------------------------------------------------------ -/

/-- Modelled from the spec: return the element with the lowest `f`
value, breaking ties in favor of the earliest occurrence. -/
def firstMin {α : Type} (f : α → Int) : List α → Option α
  | [] => none
  | x :: xs =>
      match firstMin f xs with
      | none => some x
      | some b => if f b < f x then some b else some x

/-- The accumulator step of the multi-start selection loop, carrying
the best result so far together with its score. -/
def selStep {α : Type} (f : α → Int) (best : Option (α × Int)) (x : α) :
    Option (α × Int) :=
  match best with
  | none => some (x, f x)
  | some (br, bs) => if f x < bs then some (x, f x) else some (br, bs)

/-- The list of trial results of the multi-start loop: one insertion
pass per shuffled order. -/
def trialResults {S : Type} (E : Env S) (fleet : List (VesselG S)) (K : Nat)
    (shuffles : Nat → List Trade) : List (ScheduleProposal S) :=
  (List.range K).map (fun i => singleInsertionPass E fleet (shuffles i))

theorem firstMin_cons_none {α : Type} (f : α → Int) (x : α) (xs : List α)
    (h : firstMin f xs = none) : firstMin f (x :: xs) = some x := by
  rw [firstMin, h]

theorem firstMin_cons_some {α : Type} (f : α → Int) (x : α) (xs : List α)
    (m : α) (h : firstMin f xs = some m) :
    firstMin f (x :: xs) = if f m < f x then some m else some x := by
  rw [firstMin, h]

theorem firstMin_none_iff {α : Type} (f : α → Int) (l : List α) :
    firstMin f l = none ↔ l = [] := by
  cases l with
  | nil => simp [firstMin]
  | cons x xs =>
      simp only [List.cons_ne_nil, iff_false]
      cases h : firstMin f xs with
      | none => rw [firstMin_cons_none f x xs h]; simp
      | some m =>
          rw [firstMin_cons_some f x xs m h]
          split_ifs <;> simp

theorem firstMin_le {α : Type} (f : α → Int) :
    ∀ (l : List α) (b : α), firstMin f l = some b → ∀ y ∈ l, f b ≤ f y := by
  intro l
  induction l with
  | nil => intro b h; simp [firstMin] at h
  | cons x xs ih =>
      intro b h y hy
      cases hm : firstMin f xs with
      | none =>
          rw [firstMin_cons_none f x xs hm] at h
          have hb : x = b := by simpa using h
          have hxs : xs = [] := (firstMin_none_iff f xs).1 hm
          subst hb; subst hxs
          simp at hy
          subst hy
          exact le_refl _
      | some m =>
          rw [firstMin_cons_some f x xs m hm] at h
          by_cases hlt : f m < f x
          · rw [if_pos hlt] at h
            have hb : m = b := by simpa using h
            subst hb
            rcases List.mem_cons.1 hy with hy | hy
            · subst hy; exact le_of_lt hlt
            · exact ih m hm y hy
          · rw [if_neg hlt] at h
            have hb : x = b := by simpa using h
            subst hb
            rcases List.mem_cons.1 hy with hy | hy
            · subst hy; exact le_refl _
            · exact le_trans (not_lt.1 hlt) (ih m hm y hy)

theorem firstMin_split {α : Type} (f : α → Int) :
    ∀ (l : List α) (b : α), firstMin f l = some b →
      ∃ l₁ l₂, l = l₁ ++ b :: l₂ ∧ ∀ y ∈ l₁, f b < f y := by
  intro l
  induction l with
  | nil => intro b h; simp [firstMin] at h
  | cons x xs ih =>
      intro b h
      cases hm : firstMin f xs with
      | none =>
          rw [firstMin_cons_none f x xs hm] at h
          have hb : x = b := by simpa using h
          subst hb
          exact ⟨[], xs, rfl, by simp⟩
      | some m =>
          rw [firstMin_cons_some f x xs m hm] at h
          by_cases hlt : f m < f x
          · rw [if_pos hlt] at h
            have hb : m = b := by simpa using h
            subst hb
            obtain ⟨l₁, l₂, heq, hstrict⟩ := ih m hm
            refine ⟨x :: l₁, l₂, by rw [heq]; simp, ?_⟩
            intro y hy
            rcases List.mem_cons.1 hy with hy | hy
            · subst hy; exact hlt
            · exact hstrict y hy
          · rw [if_neg hlt] at h
            have hb : x = b := by simpa using h
            subst hb
            exact ⟨[], xs, rfl, by simp⟩

/-- The selection fold started from an arbitrary accumulated best
returns the accumulated best unless the first minimum of the remaining
list strictly beats it. -/
theorem selLoop_acc {α : Type} (f : α → Int) :
    ∀ (l : List α) (b m : α), firstMin f l = some m →
      l.foldl (selStep f) (some (b, f b)) =
        if f m < f b then some (m, f m) else some (b, f b) := by
  intro l
  induction l with
  | nil => intro b m h; simp [firstMin] at h
  | cons x xs ih =>
      intro b m h
      have hstep : selStep f (some (b, f b)) x =
          some ((if f x < f b then x else b),
                f (if f x < f b then x else b)) := by
        simp only [selStep]
        split_ifs <;> rfl
      show xs.foldl (selStep f) (selStep f (some (b, f b)) x) = _
      rw [hstep]
      cases hm : firstMin f xs with
      | none =>
          have hxs : xs = [] := (firstMin_none_iff f xs).1 hm
          rw [firstMin_cons_none f x xs hm] at h
          have hx : x = m := by simpa using h
          subst hx
          subst hxs
          simp only [List.foldl_nil]
          split_ifs <;> rfl
      | some w =>
          rw [firstMin_cons_some f x xs w hm] at h
          rw [ih (if f x < f b then x else b) w hm]
          by_cases hwx : f w < f x
          · rw [if_pos hwx] at h
            have hw : w = m := by simpa using h
            subst hw
            split_ifs <;> first | rfl | (exfalso; omega)
          · rw [if_neg hwx] at h
            have hx : x = m := by simpa using h
            subst hx
            split_ifs <;> first | rfl | (exfalso; omega)

/-- The selection fold from the empty accumulator computes exactly the
first minimum paired with its score. -/
theorem selLoop_eq_firstMin {α : Type} (f : α → Int) (l : List α) :
    l.foldl (selStep f) none = (firstMin f l).map (fun b => (b, f b)) := by
  cases l with
  | nil => rfl
  | cons x xs =>
      show xs.foldl (selStep f) (selStep f none x) = _
      have h0 : selStep f none x = some (x, f x) := rfl
      rw [h0]
      cases hm : firstMin f xs with
      | none =>
          have hxs : xs = [] := (firstMin_none_iff f xs).1 hm
          subst hxs
          rw [firstMin_cons_none f x [] hm]
          rfl
      | some m =>
          rw [selLoop_acc f xs x m hm, firstMin_cons_some f x xs m hm]
          split_ifs <;> rfl

/-- The pre-auction loop is the selection fold over the trial
results. -/
theorem preAuction_eq_fold {S : Type} (E : Env S) (fleet : List (VesselG S))
    (kmax : Nat) (trades : List Trade) (shuffles : Nat → List Trade) :
    preAuction E fleet kmax trades shuffles =
      ((trialResults E fleet (adaptiveShuffleCount kmax trades.length)
          shuffles).foldl (selStep (mssScore E)) none).map Prod.fst := by
  unfold preAuction trialResults
  rw [List.foldl_map]
  have hfun : (fun (best : Option (ScheduleProposal S × Int)) (i : Nat) =>
      let result := singleInsertionPass E fleet (shuffles i)
      let score := mssScore E result
      match best with
      | none => some (result, score)
      | some (br, bs) =>
          if score < bs then some (result, score) else some (br, bs)) =
      (fun best i =>
        selStep (mssScore E) best (singleInsertionPass E fleet (shuffles i))) := by
    funext best i
    cases best with
    | none => rfl
    | some p =>
        obtain ⟨br, bs⟩ := p
        rfl
  rw [hfun]

/-- Claim C5: the pre-auction estimation path runs the insertion pass
on `K = adaptiveShuffleCount(n)` shuffled orders, scores each result
with `mssScore` (`-1000 * |scheduled| + total completion time`), and
returns the first-found lowest-scoring result: the trial list splits
around the returned result `b` into earlier trials that all score
strictly worse and trials in general that score no better. -/
theorem c5_multistart_first_min {S : Type} (E : Env S)
    (fleet : List (VesselG S)) (kmax : Nat) (trades : List Trade)
    (shuffles : Nat → List Trade) (hk : 1 ≤ kmax) :
    preAuction E fleet kmax trades shuffles =
      firstMin (mssScore E) (trialResults E fleet
        (adaptiveShuffleCount kmax trades.length) shuffles) ∧
    ∃ b l₁ l₂,
      preAuction E fleet kmax trades shuffles = some b ∧
      trialResults E fleet (adaptiveShuffleCount kmax trades.length) shuffles
        = l₁ ++ b :: l₂ ∧
      (∀ y ∈ l₁, mssScore E b < mssScore E y) ∧
      (∀ y ∈ trialResults E fleet (adaptiveShuffleCount kmax trades.length)
          shuffles, mssScore E b ≤ mssScore E y) := by
  have heq : preAuction E fleet kmax trades shuffles =
      firstMin (mssScore E) (trialResults E fleet
        (adaptiveShuffleCount kmax trades.length) shuffles) := by
    rw [preAuction_eq_fold, selLoop_eq_firstMin]
    cases firstMin (mssScore E) (trialResults E fleet
        (adaptiveShuffleCount kmax trades.length) shuffles) <;> rfl
  refine ⟨heq, ?_⟩
  have hKpos : 1 ≤ adaptiveShuffleCount kmax trades.length := by
    unfold adaptiveShuffleCount
    split_ifs <;> omega
  have hne : trialResults E fleet (adaptiveShuffleCount kmax trades.length)
      shuffles ≠ [] := by
    unfold trialResults
    simp only [ne_eq, List.map_eq_nil_iff, List.range_eq_nil]
    omega
  cases hb : firstMin (mssScore E) (trialResults E fleet
      (adaptiveShuffleCount kmax trades.length) shuffles) with
  | none => exact absurd ((firstMin_none_iff _ _).1 hb) hne
  | some b =>
      obtain ⟨l₁, l₂, hsplit, hstrict⟩ := firstMin_split _ _ b hb
      exact ⟨b, l₁, l₂, by rw [heq, hb], hsplit, hstrict,
        firstMin_le _ _ b hb⟩

theorem c5_multistart_first_min_witness :
    preAuction envA fleetA MAX_SHUFFLES [tA] (fun _ => [tA]) =
      firstMin (mssScore envA) (trialResults envA fleetA
        (adaptiveShuffleCount MAX_SHUFFLES [tA].length) (fun _ => [tA])) :=
  (c5_multistart_first_min envA fleetA MAX_SHUFFLES [tA] (fun _ => [tA])
    (by decide)).1

/- ------------------------------------------------------------------
Claim C8: the recorded cost of every assignment is the CostModel value
at the tracked prior location.  `costModel` restates the cost formula
in the spec's wording; `replayEvents` recomputes, from the assignment
event sequence alone, the per-trade costs and per-vessel last known
locations the pass should have recorded: the prior location of a vessel
is its real current location before its first assignment in the pass
and the destination of its previously assigned trade afterwards.
------------------------------------------------------------------ -/

/-- Modelled from the spec (section 4.1, CostModel): loading
consumption, plus unloading consumption mirrored from loading, plus
empty-travel consumption from the prior location to the trade's origin,
plus laden-travel consumption from origin to destination. -/
def costModel {S : Type} (E : Env S) (v : VesselG S) (t : Trade)
    (priorLocation : Nat) : Int :=
  let load_t := v.get_loading_time t.cargo_type t.amount
  let loading := v.get_loading_consumption load_t
  let unloading := v.get_loading_consumption load_t
  let empty := v.get_ballast_consumption
    (v.get_travel_time (E.get_network_distance priorLocation t.origin_port))
    v.speed
  let laden := v.get_laden_consumption
    (v.get_travel_time
      (E.get_network_distance t.origin_port t.destination_port))
    v.speed
  loading + unloading + empty + laden

/-- Replay one assignment event over (cost map, last-port map): charge
the CostModel value at the vessel's tracked prior location and move the
vessel's last known location to the trade's destination. -/
def replayStep {S : Type} (E : Env S)
    (acc : List (Trade × Int) × List (Nat × Nat))
    (ev : VesselG S × Trade) : List (Trade × Int) × List (Nat × Nat) :=
  let prior := (findA acc.2 ev.1.vid).getD ev.1.location
  (setA acc.1 ev.2 (costModel E ev.1 ev.2 prior),
   setA acc.2 ev.1.vid ev.2.destination_port)

def replayEvents {S : Type} (E : Env S) (evs : List (VesselG S × Trade)) :
    List (Trade × Int) × List (Nat × Nat) :=
  evs.foldl (replayStep E) ([], [])

theorem replayEvents_append {S : Type} (E : Env S)
    (evs : List (VesselG S × Trade)) (e : VesselG S × Trade) :
    replayEvents E (evs ++ [e]) = replayStep E (replayEvents E evs) e := by
  unfold replayEvents
  rw [List.foldl_append]
  rfl

theorem assignmentCost_eq_costModel {S : Type} (E : Env S) (v : VesselG S)
    (prev : Nat) (t : Trade) :
    assignmentCost E v prev t = costModel E v t prev := by
  unfold assignmentCost costModel
  ring

/-- A fold preserves any invariant its step preserves. -/
theorem foldl_inv {α β : Type} (f : β → α → β) (P : β → Prop)
    (h : ∀ b a, P b → P (f b a)) :
    ∀ (l : List α) (b : β), P b → P (l.foldl f b) := by
  intro l
  induction l with
  | nil => intro b hb; exact hb
  | cons x xs ih => intro b hb; exact ih (f b x) (h b x hb)

theorem tryVessel_replay {S : Type} (E : Env S) (t : Trade)
    (st : PassSt S) (v : VesselG S)
    (h : (st.costs, st.vessel_last_port) = replayEvents E st.events) :
    ((tryVessel E t st v).costs, (tryVessel E t st v).vessel_last_port) =
      replayEvents E (tryVessel E t st v).events := by
  cases hb : bestInsertion E ((findA st.schedules v.vid).getD v.schedule) t with
  | none =>
      simp only [tryVessel, hb]
      exact h
  | some best =>
      simp only [tryVessel, hb]
      rw [replayEvents_append, ← h]
      simp only [replayStep, assignmentCost_eq_costModel]

theorem runPass_replay {S : Type} (E : Env S) (fleet : List (VesselG S))
    (trades : List Trade) :
    ((runPass E fleet trades).costs, (runPass E fleet trades).vessel_last_port)
      = replayEvents E (runPass E fleet trades).events := by
  unfold runPass
  refine foldl_inv (passTrade E fleet)
    (fun st => (st.costs, st.vessel_last_port) = replayEvents E st.events)
    ?_ trades (initPassSt S) rfl
  intro st t hst
  unfold passTrade
  exact foldl_inv (tryVessel E t)
    (fun st => (st.costs, st.vessel_last_port) = replayEvents E st.events)
    (fun st v h => tryVessel_replay E t st v h) fleet st hst

/- ------------------------------------------------------------------
Claim C9: determinism of the insertion pass.  The pass is given a
big-step operational semantics `PassRel` mirroring the source's loop
nest — the candidate scan, the vessel loop and the trade loop — and
determinism is: any two derivations from the same trade order and the
same initial fleet state end in the same final state.  Adequacy
lemmas relate the relation to the functional embedding in both
directions.
------------------------------------------------------------------ -/

/-- One candidate scan for a trade over a fixed base schedule: process
the insertion pairs in order, skipping infeasible candidates and
keeping the feasible candidate with strictly smallest completion time,
first found on ties. -/
inductive BestScan {S : Type} (E : Env S) (base : S) (t : Trade) :
    List (Nat × Nat) → Option S → Option S → Prop
  | nil (acc : Option S) : BestScan E base t [] acc acc
  | infeasible {p : Nat × Nat} {ps : List (Nat × Nat)} {acc r : Option S} :
      E.ops.verify_schedule (E.ops.add_transportation base t p.1 p.2) = false →
      BestScan E base t ps acc r → BestScan E base t (p :: ps) acc r
  | first {p : Nat × Nat} {ps : List (Nat × Nat)} {r : Option S} :
      E.ops.verify_schedule (E.ops.add_transportation base t p.1 p.2) = true →
      BestScan E base t ps (some (E.ops.add_transportation base t p.1 p.2)) r →
      BestScan E base t (p :: ps) none r
  | better {p : Nat × Nat} {ps : List (Nat × Nat)} {b : S} {r : Option S} :
      E.ops.verify_schedule (E.ops.add_transportation base t p.1 p.2) = true →
      E.ops.completion_time (E.ops.add_transportation base t p.1 p.2) <
        E.ops.completion_time b →
      BestScan E base t ps (some (E.ops.add_transportation base t p.1 p.2)) r →
      BestScan E base t (p :: ps) (some b) r
  | keep {p : Nat × Nat} {ps : List (Nat × Nat)} {b : S} {r : Option S} :
      E.ops.verify_schedule (E.ops.add_transportation base t p.1 p.2) = true →
      ¬ E.ops.completion_time (E.ops.add_transportation base t p.1 p.2) <
        E.ops.completion_time b →
      BestScan E base t ps (some b) r →
      BestScan E base t (p :: ps) (some b) r

/-- One vessel-loop iteration: either no feasible candidate exists and
the state is unchanged, or the best candidate is committed together
with the cost and location bookkeeping. -/
inductive VesselStep {S : Type} (E : Env S) (t : Trade) :
    PassSt S → VesselG S → PassSt S → Prop
  | drop {st : PassSt S} {v : VesselG S} :
      BestScan E ((findA st.schedules v.vid).getD v.schedule) t
        (insertionPairs (E.ops.get_insertion_points
          ((findA st.schedules v.vid).getD v.schedule))) none none →
      VesselStep E t st v st
  | assign {st : PassSt S} {v : VesselG S} {best : S} :
      BestScan E ((findA st.schedules v.vid).getD v.schedule) t
        (insertionPairs (E.ops.get_insertion_points
          ((findA st.schedules v.vid).getD v.schedule))) none (some best) →
      VesselStep E t st v
        { vessel_last_port := setA st.vessel_last_port v.vid
            t.destination_port,
          schedules := setA st.schedules v.vid best,
          scheduled_trades := st.scheduled_trades ++ [t],
          costs := setA st.costs t (assignmentCost E v
            ((findA st.vessel_last_port v.vid).getD v.location) t),
          trade_to_vessel := setA st.trade_to_vessel t v.vid,
          events := st.events ++ [(v, t)] }

/-- The vessel loop for one trade, over the fleet in order. -/
inductive FleetScan {S : Type} (E : Env S) (t : Trade) :
    PassSt S → List (VesselG S) → PassSt S → Prop
  | nil {st : PassSt S} : FleetScan E t st [] st
  | cons {st st1 st2 : PassSt S} {v : VesselG S} {vs : List (VesselG S)} :
      VesselStep E t st v st1 → FleetScan E t st1 vs st2 →
      FleetScan E t st (v :: vs) st2

/-- The trade loop: process the trades in their given order. -/
inductive PassRel {S : Type} (E : Env S) (fleet : List (VesselG S)) :
    List Trade → PassSt S → PassSt S → Prop
  | nil {st : PassSt S} : PassRel E fleet [] st st
  | cons {t : Trade} {ts : List Trade} {st st1 st2 : PassSt S} :
      FleetScan E t st fleet st1 → PassRel E fleet ts st1 st2 →
      PassRel E fleet (t :: ts) st st2

theorem bestScan_fold {S : Type} (E : Env S) (base : S) (t : Trade)
    {ps : List (Nat × Nat)} {acc r : Option S}
    (h : BestScan E base t ps acc r) :
    ps.foldl (bestStep E base t) acc = r := by
  induction h with
  | nil acc => rfl
  | @infeasible p ps acc r hv hrec ih =>
      rw [List.foldl_cons]
      have hstep : bestStep E base t acc p = acc := by simp [bestStep, hv]
      rw [hstep]; exact ih
  | @first p ps r hv hrec ih =>
      rw [List.foldl_cons]
      have hstep : bestStep E base t none p =
          some (E.ops.add_transportation base t p.1 p.2) := by
        simp [bestStep, hv]
      rw [hstep]; exact ih
  | @better p ps b r hv hlt hrec ih =>
      rw [List.foldl_cons]
      have hstep : bestStep E base t (some b) p =
          some (E.ops.add_transportation base t p.1 p.2) := by
        simp [bestStep, hv, hlt]
      rw [hstep]; exact ih
  | @keep p ps b r hv hlt hrec ih =>
      rw [List.foldl_cons]
      have hstep : bestStep E base t (some b) p = some b := by
        simp [bestStep, hv, hlt]
      rw [hstep]; exact ih

theorem fold_bestScan {S : Type} (E : Env S) (base : S) (t : Trade) :
    ∀ (ps : List (Nat × Nat)) (acc : Option S),
      BestScan E base t ps acc (ps.foldl (bestStep E base t) acc) := by
  intro ps
  induction ps with
  | nil => intro acc; exact BestScan.nil acc
  | cons p ps ih =>
      intro acc
      rw [List.foldl_cons]
      cases hv : E.ops.verify_schedule (E.ops.add_transportation base t p.1 p.2)
      · have hstep : bestStep E base t acc p = acc := by simp [bestStep, hv]
        rw [hstep]
        exact BestScan.infeasible hv (ih acc)
      · cases acc with
        | none =>
            have hstep : bestStep E base t none p =
                some (E.ops.add_transportation base t p.1 p.2) := by
              simp [bestStep, hv]
            rw [hstep]
            exact BestScan.first hv (ih _)
        | some b =>
            by_cases hlt : E.ops.completion_time
                (E.ops.add_transportation base t p.1 p.2) <
                E.ops.completion_time b
            · have hstep : bestStep E base t (some b) p =
                  some (E.ops.add_transportation base t p.1 p.2) := by
                simp [bestStep, hv, hlt]
              rw [hstep]
              exact BestScan.better hv hlt (ih _)
            · have hstep : bestStep E base t (some b) p = some b := by
                simp [bestStep, hv, hlt]
              rw [hstep]
              exact BestScan.keep hv hlt (ih _)

theorem vesselStep_fun {S : Type} (E : Env S) (t : Trade)
    {st st2 : PassSt S} {v : VesselG S} (h : VesselStep E t st v st2) :
    st2 = tryVessel E t st v := by
  cases h with
  | drop hscan =>
      have hb : bestInsertion E ((findA st.schedules v.vid).getD v.schedule) t
          = none := bestScan_fold E _ t hscan
      simp [tryVessel, hb]
  | assign hscan =>
      have hb : bestInsertion E ((findA st.schedules v.vid).getD v.schedule) t
          = some _ := bestScan_fold E _ t hscan
      simp [tryVessel, hb]

theorem fun_vesselStep {S : Type} (E : Env S) (t : Trade)
    (st : PassSt S) (v : VesselG S) :
    VesselStep E t st v (tryVessel E t st v) := by
  cases hb : bestInsertion E ((findA st.schedules v.vid).getD v.schedule) t
    with
  | none =>
      have hscan : BestScan E ((findA st.schedules v.vid).getD v.schedule) t
          (insertionPairs (E.ops.get_insertion_points
            ((findA st.schedules v.vid).getD v.schedule))) none none := by
        have := fold_bestScan E ((findA st.schedules v.vid).getD v.schedule) t
          (insertionPairs (E.ops.get_insertion_points
            ((findA st.schedules v.vid).getD v.schedule))) none
        rwa [show (insertionPairs (E.ops.get_insertion_points
          ((findA st.schedules v.vid).getD v.schedule))).foldl
            (bestStep E ((findA st.schedules v.vid).getD v.schedule) t) none
          = none from hb] at this
      have hres : tryVessel E t st v = st := by simp [tryVessel, hb]
      rw [hres]
      exact VesselStep.drop hscan
  | some best =>
      have hscan : BestScan E ((findA st.schedules v.vid).getD v.schedule) t
          (insertionPairs (E.ops.get_insertion_points
            ((findA st.schedules v.vid).getD v.schedule))) none (some best) := by
        have := fold_bestScan E ((findA st.schedules v.vid).getD v.schedule) t
          (insertionPairs (E.ops.get_insertion_points
            ((findA st.schedules v.vid).getD v.schedule))) none
        rwa [show (insertionPairs (E.ops.get_insertion_points
          ((findA st.schedules v.vid).getD v.schedule))).foldl
            (bestStep E ((findA st.schedules v.vid).getD v.schedule) t) none
          = some best from hb] at this
      have hres : tryVessel E t st v =
          { vessel_last_port := setA st.vessel_last_port v.vid
              t.destination_port,
            schedules := setA st.schedules v.vid best,
            scheduled_trades := st.scheduled_trades ++ [t],
            costs := setA st.costs t (assignmentCost E v
              ((findA st.vessel_last_port v.vid).getD v.location) t),
            trade_to_vessel := setA st.trade_to_vessel t v.vid,
            events := st.events ++ [(v, t)] } := by
        simp [tryVessel, hb]
      rw [hres]
      exact VesselStep.assign hscan

theorem fleetScan_fun {S : Type} (E : Env S) (t : Trade)
    {st st2 : PassSt S} {vs : List (VesselG S)}
    (h : FleetScan E t st vs st2) :
    st2 = vs.foldl (tryVessel E t) st := by
  induction h with
  | nil => rfl
  | cons hstep _ ih =>
      rw [List.foldl_cons, ← vesselStep_fun E t hstep]
      exact ih

theorem fun_fleetScan {S : Type} (E : Env S) (t : Trade) :
    ∀ (vs : List (VesselG S)) (st : PassSt S),
      FleetScan E t st vs (vs.foldl (tryVessel E t) st) := by
  intro vs
  induction vs with
  | nil => intro st; exact FleetScan.nil
  | cons v vs ih =>
      intro st
      rw [List.foldl_cons]
      exact FleetScan.cons (fun_vesselStep E t st v) (ih _)

theorem passRel_fun {S : Type} (E : Env S) (fleet : List (VesselG S))
    {ts : List Trade} {st st2 : PassSt S} (h : PassRel E fleet ts st st2) :
    st2 = ts.foldl (passTrade E fleet) st := by
  induction h with
  | nil => rfl
  | cons hfs _ ih =>
      rw [List.foldl_cons]
      have : _ = passTrade E fleet _ _ := fleetScan_fun E _ hfs
      rw [← this]
      exact ih

theorem fun_passRel {S : Type} (E : Env S) (fleet : List (VesselG S)) :
    ∀ (ts : List Trade) (st : PassSt S),
      PassRel E fleet ts st (ts.foldl (passTrade E fleet) st) := by
  intro ts
  induction ts with
  | nil => intro st; exact PassRel.nil
  | cons t ts ih =>
      intro st
      rw [List.foldl_cons]
      exact PassRel.cons (fun_fleetScan E t fleet st) (ih _)

/-- Claim C9: the insertion pass is deterministic — any two runs (any
two big-step derivations) from the same trade order and the same
initial fleet state end in the same final state: the same vessel
schedule assignment, the same scheduled trade sequence, the same cost
map (and the same vessel map and event log). -/
theorem c9_pass_deterministic {S : Type} (E : Env S)
    (fleet : List (VesselG S)) (trades : List Trade) (r1 r2 : PassSt S)
    (h1 : PassRel E fleet trades (initPassSt S) r1)
    (h2 : PassRel E fleet trades (initPassSt S) r2) :
    r1 = r2 := by
  rw [passRel_fun E fleet h1, passRel_fun E fleet h2]

theorem c9_pass_deterministic_witness :
    runPass envA fleetA [tA] = runPass envA fleetA [tA] :=
  c9_pass_deterministic envA fleetA [tA] (runPass envA fleetA [tA])
    (runPass envA fleetA [tA])
    (fun_passRel envA fleetA [tA] (initPassSt (List Trade)))
    (fun_passRel envA fleetA [tA] (initPassSt (List Trade)))

/-- Claim C8: the cost map recorded by the insertion pass is exactly
the CostModel replay of its assignment event sequence: each scheduled
trade's recorded cost is ballast consumption from the assigned vessel's
prior location to the origin, plus laden consumption from origin to
destination, plus loading consumption charged twice (mirrored
unloading), where the prior location is the vessel's real current
location before its first within-pass assignment and the destination of
its previously assigned trade afterwards. -/
theorem c8_costs_follow_cost_model {S : Type} (E : Env S)
    (fleet : List (VesselG S)) (trades : List Trade) :
    (singleInsertionPass E fleet trades).costs =
      (replayEvents E (runPass E fleet trades).events).1 ∧
    (runPass E fleet trades).vessel_last_port =
      (replayEvents E (runPass E fleet trades).events).2 := by
  have h := runPass_replay E fleet trades
  exact ⟨congrArg Prod.fst h, congrArg Prod.snd h⟩

/- ------------------------------------------------------------------
Claim C6: frame property of the estimation path.  The pure model above
treats `copy()` as value duplication; to settle the aliasing claim the
pass is re-embedded over an explicit store (a heap of schedule
objects).  Schedule references are indices into the store,
`vessel.schedule` is a reference to the vessel's real committed
schedule object, `copy()` allocates a fresh cell and
`add_transportation` mutates a cell in place — exactly the Python
object semantics.  The claim then becomes: running the whole
multi-start estimation path never changes any cell that existed before
the call (in particular no vessel's real schedule cell), and the
result, dereferenced, coincides with the pure value-semantics model
computed from the initial schedule values alone — so no trial can
observe or mutate another trial's working state.
------------------------------------------------------------------ -/

/-- Read a store cell (out-of-range reads return the default value;
all reads performed by the embedded code are in range). -/
def sread {S : Type} [Inhabited S] (st : List S) (r : Nat) : S :=
  (st.get? r).getD default

/-- `copy()`: allocate a fresh cell holding `x`, returning the new
store and the fresh reference. -/
def salloc {S : Type} (st : List S) (x : S) : List S × Nat :=
  (st ++ [x], st.length)

/-- In-place mutation of the cell at `r`. -/
def swrite {S : Type} (st : List S) (r : Nat) (x : S) : List S :=
  st.set r x

/-- Store extension: every cell of `a` is still present, unchanged, in
`b`. -/
def Pres {S : Type} (a b : List S) : Prop :=
  a.length ≤ b.length ∧ ∀ i, i < a.length → b.get? i = a.get? i

/-- The locals of the store-level pass; schedules map vessel ids to
references. -/
structure PassStR where
  vessel_last_port : List (Nat × Nat)
  schedules : List (Nat × Nat)
  scheduled_trades : List Trade
  costs : List (Trade × Int)
  trade_to_vessel : List (Trade × Nat)

def initPassStR : PassStR :=
  { vessel_last_port := [], schedules := [], scheduled_trades := [],
    costs := [], trade_to_vessel := [] }

/-- Store-level candidate scan step: `test = base.copy()` allocates,
`test.add_transportation(...)` mutates the fresh cell, then the
feasibility check and the completion-time comparison read cells. -/
def bestStepR {S : Type} [Inhabited S] (E : Env S) (baseRef : Nat) (t : Trade)
    (acc : List S × Option Nat) (p : Nat × Nat) : List S × Option Nat :=
  let stC := (salloc acc.1 (sread acc.1 baseRef)).1
  let testRef := (salloc acc.1 (sread acc.1 baseRef)).2
  let st2 := swrite stC testRef
    (E.ops.add_transportation (sread stC testRef) t p.1 p.2)
  if E.ops.verify_schedule (sread st2 testRef) = false then (st2, acc.2)
  else
    match acc.2 with
    | none => (st2, some testRef)
    | some b =>
        if E.ops.completion_time (sread st2 testRef) <
            E.ops.completion_time (sread st2 b) then (st2, some testRef)
        else (st2, some b)

def bestInsertionR {S : Type} [Inhabited S] (E : Env S) (st : List S)
    (baseRef : Nat) (t : Trade) : List S × Option Nat :=
  (insertionPairs (E.ops.get_insertion_points (sread st baseRef))).foldl
    (bestStepR E baseRef t) (st, none)

/-- Store-level vessel-loop body: `base = current.copy()` allocates the
working copy, the candidate scan runs over it, and on success the
chosen candidate's reference is stored in the schedules map. -/
def tryVesselR {S : Type} [Inhabited S] (E : Env S) (t : Trade)
    (acc : List S × PassStR) (v : VesselG Nat) : List S × PassStR :=
  let currentRef := (findA acc.2.schedules v.vid).getD v.schedule
  let st1 := (salloc acc.1 (sread acc.1 currentRef)).1
  let baseRef := (salloc acc.1 (sread acc.1 currentRef)).2
  let res := bestInsertionR E st1 baseRef t
  match res.2 with
  | none => (res.1, acc.2)
  | some bestRef =>
      (res.1,
       { vessel_last_port := setA acc.2.vessel_last_port v.vid
           t.destination_port,
         schedules := setA acc.2.schedules v.vid bestRef,
         scheduled_trades := acc.2.scheduled_trades ++ [t],
         costs := setA acc.2.costs t (assignmentCost E v
           ((findA acc.2.vessel_last_port v.vid).getD v.location) t),
         trade_to_vessel := setA acc.2.trade_to_vessel t v.vid })

def passTradeR {S : Type} [Inhabited S] (E : Env S)
    (fleetR : List (VesselG Nat)) (acc : List S × PassStR) (t : Trade) :
    List S × PassStR :=
  fleetR.foldl (tryVesselR E t) acc

def runPassR {S : Type} [Inhabited S] (E : Env S)
    (fleetR : List (VesselG Nat)) (trades : List Trade) (st0 : List S) :
    List S × PassStR :=
  trades.foldl (passTradeR E fleetR) (st0, initPassStR)

/-- The store-level proposal: schedules are references. -/
structure ScheduleProposalR where
  schedules : List (Nat × Nat)
  scheduled_trades : List Trade
  costs : List (Trade × Int)

def singleInsertionPassR {S : Type} [Inhabited S] (E : Env S)
    (fleetR : List (VesselG Nat)) (trades : List Trade) (st0 : List S) :
    List S × ScheduleProposalR :=
  ((runPassR E fleetR trades st0).1,
   { schedules := (runPassR E fleetR trades st0).2.schedules,
     scheduled_trades := (runPassR E fleetR trades st0).2.scheduled_trades,
     costs := (runPassR E fleetR trades st0).2.costs })

def mssScoreR {S : Type} [Inhabited S] (E : Env S) (st : List S)
    (p : ScheduleProposalR) : Int :=
  -1000 * (p.scheduled_trades.length : Int) +
    ((valuesA p.schedules).map (fun r => E.ops.completion_time (sread st r))).sum

/-- Store-level multi-start trial step: all trials run in the same
growing heap, as in the Python process. -/
def trialStepR {S : Type} [Inhabited S] (E : Env S)
    (fleetR : List (VesselG Nat)) (shuffles : Nat → List Trade)
    (acc : List S × Option (ScheduleProposalR × Int)) (i : Nat) :
    List S × Option (ScheduleProposalR × Int) :=
  let res := singleInsertionPassR E fleetR (shuffles i) acc.1
  let score := mssScoreR E res.1 res.2
  match acc.2 with
  | none => (res.1, some (res.2, score))
  | some (br, bs) =>
      if score < bs then (res.1, some (res.2, score)) else (res.1, some (br, bs))

def preAuctionR {S : Type} [Inhabited S] (E : Env S)
    (fleetR : List (VesselG Nat)) (kmax : Nat) (trades : List Trade)
    (shuffles : Nat → List Trade) (st0 : List S) :
    List S × Option ScheduleProposalR :=
  let r := (List.range (adaptiveShuffleCount kmax trades.length)).foldl
    (trialStepR E fleetR shuffles) (st0, none)
  (r.1, r.2.map Prod.fst)

/-- The vessel value a store-level vessel denotes: same identity and
physics, schedule field dereferenced. -/
def derefVessel {S : Type} [Inhabited S] (st : List S) (v : VesselG Nat) :
    VesselG S :=
  { vid := v.vid, location := v.location, speed := v.speed,
    schedule := sread st v.schedule,
    get_travel_time := v.get_travel_time,
    get_ballast_consumption := v.get_ballast_consumption,
    get_loading_time := v.get_loading_time,
    get_loading_consumption := v.get_loading_consumption,
    get_laden_consumption := v.get_laden_consumption }

/-- A reference-level schedules map denotes a value-level one: same
keys in the same order, values dereferenced, all references in
range. -/
def schedCorr {S : Type} [Inhabited S] (st : List S) (a : List (Nat × Nat))
    (b : List (Nat × S)) : Prop :=
  b = a.map (fun kr => (kr.1, sread st kr.2)) ∧ ∀ kr ∈ a, kr.2 < st.length

/-- Correspondence between a store-level and a value-level pass
state. -/
def stCorr {S : Type} [Inhabited S] (st : List S) (pr : PassStR)
    (ps : PassSt S) : Prop :=
  ps.vessel_last_port = pr.vessel_last_port ∧
  schedCorr st pr.schedules ps.schedules ∧
  ps.scheduled_trades = pr.scheduled_trades ∧
  ps.costs = pr.costs ∧
  ps.trade_to_vessel = pr.trade_to_vessel

/-- Correspondence between the candidate-scan accumulators. -/
def refOptCorr {S : Type} [Inhabited S] (st : List S) :
    Option Nat → Option S → Prop
  | none, none => True
  | some r, some v => r < st.length ∧ sread st r = v
  | _, _ => False

theorem pres_refl {S : Type} (a : List S) : Pres a a :=
  ⟨le_refl _, fun _ _ => rfl⟩

theorem pres_trans {S : Type} {a b c : List S} (h1 : Pres a b)
    (h2 : Pres b c) : Pres a c :=
  ⟨le_trans h1.1 h2.1,
   fun i hi => by rw [h2.2 i (lt_of_lt_of_le hi h1.1), h1.2 i hi]⟩

theorem sread_pres {S : Type} [Inhabited S] {a b : List S} (h : Pres a b)
    {r : Nat} (hr : r < a.length) : sread b r = sread a r := by
  unfold sread
  rw [h.2 r hr]

theorem pres_concat {S : Type} (a : List S) (x : S) : Pres a (a ++ [x]) :=
  ⟨by simp, fun i hi => List.get?_append hi⟩

theorem pres_swrite_ge {S : Type} {a b : List S} (h : Pres a b) {r : Nat}
    (hr : a.length ≤ r) (x : S) : Pres a (swrite b r x) := by
  refine ⟨by simpa [swrite] using h.1, fun i hi => ?_⟩
  unfold swrite
  rw [List.get?_set_ne x b (by omega)]
  exact h.2 i hi

theorem sread_concat_self {S : Type} [Inhabited S] (a : List S) (x : S) :
    sread (a ++ [x]) a.length = x := by
  unfold sread
  rw [List.get?_concat_length]
  rfl

theorem sread_swrite_self {S : Type} [Inhabited S] {b : List S} {r : Nat}
    (hr : r < b.length) (x : S) : sread (swrite b r x) r = x := by
  unfold sread swrite
  rw [List.get?_set_eq_of_lt x hr]
  rfl

theorem swrite_length {S : Type} (b : List S) (r : Nat) (x : S) :
    (swrite b r x).length = b.length := by
  simp [swrite]

theorem refOptCorr_pres {S : Type} [Inhabited S] {st st2 : List S}
    (h : Pres st st2) {a : Option Nat} {b : Option S}
    (hc : refOptCorr st a b) : refOptCorr st2 a b := by
  cases a with
  | none => cases b with
    | none => trivial
    | some v => exact absurd hc (by simp [refOptCorr])
  | some r => cases b with
    | none => exact absurd hc (by simp [refOptCorr])
    | some v =>
        obtain ⟨hr, hv⟩ := hc
        exact ⟨lt_of_lt_of_le hr h.1, by rw [sread_pres h hr]; exact hv⟩

theorem findA_map {κ α β : Type} [DecidableEq κ] (g : α → β) :
    ∀ (a : List (κ × α)) (k : κ),
      findA (a.map (fun kr => (kr.1, g kr.2))) k = (findA a k).map g := by
  intro a
  induction a with
  | nil => intro k; rfl
  | cons kr rest ih =>
      intro k
      simp only [List.map_cons, findA]
      by_cases h : kr.1 = k
      · rw [if_pos h, if_pos h]
        rfl
      · rw [if_neg h, if_neg h]
        exact ih k

theorem findA_mem {κ α : Type} [DecidableEq κ] :
    ∀ {a : List (κ × α)} {k : κ} {v : α}, findA a k = some v → (k, v) ∈ a := by
  intro a
  induction a with
  | nil => intro k v h; simp [findA] at h
  | cons kr rest ih =>
      intro k v h
      rw [findA] at h
      by_cases hk : kr.1 = k
      · rw [if_pos hk] at h
        have hv2 : kr.2 = v := by simpa using h
        exact List.mem_cons.2 (Or.inl (by rw [← hk, ← hv2]))
      · rw [if_neg hk] at h
        exact List.mem_cons_of_mem _ (ih h)

theorem setA_map {κ α β : Type} [DecidableEq κ] (g : α → β) :
    ∀ (a : List (κ × α)) (k : κ) (x : α),
      (setA a k x).map (fun kr => (kr.1, g kr.2)) =
        setA (a.map (fun kr => (kr.1, g kr.2))) k (g x) := by
  intro a
  induction a with
  | nil => intro k x; rfl
  | cons kr rest ih =>
      intro k x
      simp only [List.map_cons, setA]
      by_cases h : kr.1 = k
      · rw [if_pos h, if_pos h]
        rfl
      · rw [if_neg h, if_neg h]
        simp only [List.map_cons, ih]

theorem setA_mem_cases {κ α : Type} [DecidableEq κ] :
    ∀ {a : List (κ × α)} {k : κ} {x : α} {kr : κ × α},
      kr ∈ setA a k x → kr ∈ a ∨ kr = (k, x) := by
  intro a
  induction a with
  | nil =>
      intro k x kr h
      simp [setA] at h
      right
      exact h
  | cons hd rest ih =>
      intro k x kr h
      rw [setA] at h
      by_cases hk : hd.1 = k
      · rw [if_pos hk] at h
        rcases List.mem_cons.1 h with h | h
        · right; exact h
        · left; exact List.mem_cons_of_mem _ h
      · rw [if_neg hk] at h
        rcases List.mem_cons.1 h with h | h
        · left; rw [h]; exact List.mem_cons_self _ _
        · rcases ih h with h | h
          · left; exact List.mem_cons_of_mem _ h
          · right; exact h

theorem schedCorr_pres {S : Type} [Inhabited S] {st st2 : List S}
    (h : Pres st st2) {a : List (Nat × Nat)} {b : List (Nat × S)}
    (hc : schedCorr st a b) : schedCorr st2 a b := by
  obtain ⟨hmap, hbound⟩ := hc
  refine ⟨?_, fun kr hkr => lt_of_lt_of_le (hbound kr hkr) h.1⟩
  rw [hmap]
  exact (List.map_congr_left fun kr hkr => by
    rw [sread_pres h (hbound kr hkr)]).symm

theorem stCorr_pres {S : Type} [Inhabited S] {st st2 : List S}
    (h : Pres st st2) {pr : PassStR} {ps : PassSt S}
    (hc : stCorr st pr ps) : stCorr st2 pr ps :=
  ⟨hc.1, schedCorr_pres h hc.2.1, hc.2.2⟩

theorem derefVessel_pres {S : Type} [Inhabited S] {st st2 : List S}
    (h : Pres st st2) {v : VesselG Nat} (hv : v.schedule < st.length) :
    derefVessel st2 v = derefVessel st v := by
  unfold derefVessel
  rw [sread_pres h hv]

/-- One store-level scan step simulates one pure scan step: the store
only grows (pre-existing cells preserved), and the accumulators stay in
correspondence. -/
theorem bestStepR_sim {S : Type} [Inhabited S] (E : Env S) (t : Trade)
    {baseRef : Nat} {b0 : S} {st : List S} {accR : Option Nat}
    {accP : Option S} (_hbase : baseRef < st.length)
    (hb0 : sread st baseRef = b0) (hcorr : refOptCorr st accR accP)
    (p : Nat × Nat) :
    Pres st (bestStepR E baseRef t (st, accR) p).1 ∧
    refOptCorr (bestStepR E baseRef t (st, accR) p).1
      (bestStepR E baseRef t (st, accR) p).2
      (bestStep E b0 t accP p) := by
  have hsc : sread (st ++ [sread st baseRef]) st.length = b0 := by
    rw [sread_concat_self]
    exact hb0
  have hpres2 : Pres st (swrite (st ++ [sread st baseRef]) st.length
      (E.ops.add_transportation b0 t p.1 p.2)) :=
    pres_swrite_ge (pres_concat st _) (le_refl _) _
  have hlen2 : st.length < (swrite (st ++ [sread st baseRef]) st.length
      (E.ops.add_transportation b0 t p.1 p.2)).length := by
    rw [swrite_length]
    simp
  have hread2 : sread (swrite (st ++ [sread st baseRef]) st.length
      (E.ops.add_transportation b0 t p.1 p.2)) st.length =
      E.ops.add_transportation b0 t p.1 p.2 :=
    sread_swrite_self (by simp) _
  simp only [bestStepR, bestStep, salloc, hsc, hread2]
  cases hv : E.ops.verify_schedule (E.ops.add_transportation b0 t p.1 p.2)
    with
  | false =>
      rw [if_pos rfl, if_pos rfl]
      exact ⟨hpres2, refOptCorr_pres hpres2 hcorr⟩
  | true =>
      rw [if_neg (by simp), if_neg (by simp)]
      cases accR with
      | none =>
          cases accP with
          | none =>
              exact ⟨hpres2, hlen2, hread2⟩
          | some v => exact absurd hcorr (by simp [refOptCorr])
      | some r =>
          cases accP with
          | none => exact absurd hcorr (by simp [refOptCorr])
          | some v =>
              obtain ⟨hr, hrv⟩ := hcorr
              have hsr : sread (swrite (st ++ [sread st baseRef]) st.length
                  (E.ops.add_transportation b0 t p.1 p.2)) r = v := by
                rw [sread_pres hpres2 hr]
                exact hrv
              simp only []
              rw [hsr]
              by_cases hlt : E.ops.completion_time
                  (E.ops.add_transportation b0 t p.1 p.2) <
                  E.ops.completion_time v
              · rw [if_pos hlt, if_pos hlt]
                exact ⟨hpres2, hlen2, hread2⟩
              · rw [if_neg hlt, if_neg hlt]
                exact ⟨hpres2, lt_of_lt_of_le hr hpres2.1, hsr⟩

/-- The store-level candidate scan simulates the pure candidate scan:
the store grows and the final accumulators correspond. -/
theorem bestScanR_sim {S : Type} [Inhabited S] (E : Env S) (t : Trade)
    (baseRef : Nat) (b0 : S) :
    ∀ (ps : List (Nat × Nat)) (st : List S) (accR : Option Nat)
      (accP : Option S),
      baseRef < st.length → sread st baseRef = b0 →
      refOptCorr st accR accP →
      Pres st (ps.foldl (bestStepR E baseRef t) (st, accR)).1 ∧
      refOptCorr (ps.foldl (bestStepR E baseRef t) (st, accR)).1
        (ps.foldl (bestStepR E baseRef t) (st, accR)).2
        (ps.foldl (bestStep E b0 t) accP) := by
  intro ps
  induction ps with
  | nil =>
      intro st accR accP hbase hb0 hcorr
      exact ⟨pres_refl st, hcorr⟩
  | cons p ps ih =>
      intro st accR accP hbase hb0 hcorr
      rw [List.foldl_cons, List.foldl_cons]
      obtain ⟨hpres2, hcorr2⟩ := bestStepR_sim E t hbase hb0 hcorr p
      have hbase2 : baseRef < (bestStepR E baseRef t (st, accR) p).1.length :=
        lt_of_lt_of_le hbase hpres2.1
      have hb02 : sread (bestStepR E baseRef t (st, accR) p).1 baseRef = b0 := by
        rw [sread_pres hpres2 hbase]
        exact hb0
      have hstep : bestStepR E baseRef t (st, accR) p =
          ((bestStepR E baseRef t (st, accR) p).1,
           (bestStepR E baseRef t (st, accR) p).2) := rfl
      rw [hstep]
      obtain ⟨ha, hb⟩ := ih (bestStepR E baseRef t (st, accR) p).1
        (bestStepR E baseRef t (st, accR) p).2
        (bestStep E b0 t accP p) hbase2 hb02 hcorr2
      exact ⟨pres_trans hpres2 ha, hb⟩

/-- The store-level best-insertion scan simulates the pure
`bestInsertion` applied to the dereferenced base schedule. -/
theorem bestInsertionR_sim {S : Type} [Inhabited S] (E : Env S)
    (st : List S) (baseRef : Nat) (t : Trade)
    (hbase : baseRef < st.length) :
    Pres st (bestInsertionR E st baseRef t).1 ∧
    refOptCorr (bestInsertionR E st baseRef t).1
      (bestInsertionR E st baseRef t).2
      (bestInsertion E (sread st baseRef) t) := by
  unfold bestInsertionR bestInsertion
  exact bestScanR_sim E t baseRef (sread st baseRef) _ st none none hbase rfl
    trivial

theorem derefVessel_vid {S : Type} [Inhabited S] (st : List S)
    (v : VesselG Nat) : (derefVessel st v).vid = v.vid := rfl

theorem derefVessel_location {S : Type} [Inhabited S] (st : List S)
    (v : VesselG Nat) : (derefVessel st v).location = v.location := rfl

theorem derefVessel_schedule {S : Type} [Inhabited S] (st : List S)
    (v : VesselG Nat) : (derefVessel st v).schedule = sread st v.schedule :=
  rfl

/-- The cost expression only reads the vessel's physics, never its
schedule, so it is unchanged by dereferencing. -/
theorem assignmentCost_deref {S : Type} [Inhabited S] (E : Env S)
    (st : List S) (v : VesselG Nat) (prev : Nat) (t : Trade) :
    assignmentCost E (derefVessel st v) prev t = assignmentCost E v prev t :=
  rfl

/-- The store-level vessel-loop body simulates the pure one: the store
only grows, and the resulting states correspond. -/
theorem tryVesselR_sim {S : Type} [Inhabited S] (E : Env S) (t : Trade)
    (st : List S) (pr : PassStR) (ps : PassSt S) (v : VesselG Nat)
    (hv : v.schedule < st.length) (hc : stCorr st pr ps) :
    Pres st (tryVesselR E t (st, pr) v).1 ∧
    stCorr (tryVesselR E t (st, pr) v).1 (tryVesselR E t (st, pr) v).2
      (tryVessel E t ps (derefVessel st v)) := by
  obtain ⟨hvlp, ⟨hsmap, hsbound⟩, hsch, hcost, htv⟩ := hc
  -- the reference the working copy is taken from, and its value
  have hcur_lt : ((findA pr.schedules v.vid).getD v.schedule) < st.length := by
    cases hfind : findA pr.schedules v.vid with
    | none => simpa [hfind] using hv
    | some r => simpa [hfind] using hsbound _ (findA_mem hfind)
  have hcur_val : (findA ps.schedules v.vid).getD (sread st v.schedule) =
      sread st ((findA pr.schedules v.vid).getD v.schedule) := by
    rw [hsmap, findA_map]
    cases hfind : findA pr.schedules v.vid with
    | none => simp [hfind]
    | some r => simp [hfind]
  -- the freshly allocated working copy
  have hbase : st.length <
      (st ++ [sread st ((findA pr.schedules v.vid).getD v.schedule)]).length := by
    simp
  have hb0 : sread
      (st ++ [sread st ((findA pr.schedules v.vid).getD v.schedule)])
      st.length = sread st ((findA pr.schedules v.vid).getD v.schedule) :=
    sread_concat_self _ _
  have hpres1 : Pres st
      (st ++ [sread st ((findA pr.schedules v.vid).getD v.schedule)]) :=
    pres_concat _ _
  obtain ⟨hpa, hrc⟩ := bestInsertionR_sim E
    (st ++ [sread st ((findA pr.schedules v.vid).getD v.schedule)])
    st.length t hbase
  rw [hb0] at hrc
  have hpres : Pres st (bestInsertionR E
      (st ++ [sread st ((findA pr.schedules v.vid).getD v.schedule)])
      st.length t).1 := pres_trans hpres1 hpa
  -- unfold both sides and align the two option scrutinees
  simp only [tryVesselR, tryVessel, salloc, derefVessel_vid,
    derefVessel_location, derefVessel_schedule]
  rw [hcur_val]
  cases hres : (bestInsertionR E
      (st ++ [sread st ((findA pr.schedules v.vid).getD v.schedule)])
      st.length t).2 with
  | none =>
      have hpure : bestInsertion E
          (sread st ((findA pr.schedules v.vid).getD v.schedule)) t = none := by
        cases hp : bestInsertion E
            (sread st ((findA pr.schedules v.vid).getD v.schedule)) t with
        | none => rfl
        | some x =>
            rw [hres, hp] at hrc
            exact absurd hrc (by simp [refOptCorr])
      rw [hpure]
      exact ⟨hpres, hvlp, schedCorr_pres hpres ⟨hsmap, hsbound⟩, hsch, hcost,
        htv⟩
  | some bestRef =>
      cases hp : bestInsertion E
          (sread st ((findA pr.schedules v.vid).getD v.schedule)) t with
      | none =>
          rw [hres, hp] at hrc
          exact absurd hrc (by simp [refOptCorr])
      | some bestVal =>
          rw [hres, hp] at hrc
          obtain ⟨hbr, hbv⟩ := hrc
          simp only []
          refine ⟨hpres, ?_, ⟨?_, ?_⟩, ?_, ?_, ?_⟩
          · rw [hvlp]
          · rw [setA_map (fun r => sread (bestInsertionR E
                (st ++ [sread st ((findA pr.schedules v.vid).getD
                  v.schedule)]) st.length t).1 r) pr.schedules v.vid bestRef]
            rw [hbv]
            have hmapeq : pr.schedules.map (fun kr => (kr.1,
                sread (bestInsertionR E (st ++ [sread st
                  ((findA pr.schedules v.vid).getD v.schedule)])
                  st.length t).1 kr.2)) =
                pr.schedules.map (fun kr => (kr.1, sread st kr.2)) :=
              List.map_congr_left fun kr hkr => by
                rw [sread_pres hpres (hsbound kr hkr)]
            rw [hmapeq, ← hsmap]
          · intro kr hkr
            rcases setA_mem_cases hkr with hkr | hkr
            · exact lt_of_lt_of_le (hsbound kr hkr) hpres.1
            · rw [hkr]
              exact hbr
          · rw [hsch]
          · rw [hcost, hvlp, assignmentCost_deref]
          · rw [htv]

/-- The store-level vessel loop (fold over the fleet) simulates the
pure one; pre-existing cells of the initial store `st0` survive. -/
theorem fleetFoldR_sim {S : Type} [Inhabited S] (E : Env S) (t : Trade)
    (st0 : List S) :
    ∀ (vs : List (VesselG Nat)) (st : List S) (pr : PassStR) (ps : PassSt S),
      (∀ v ∈ vs, v.schedule < st0.length) → Pres st0 st → stCorr st pr ps →
      Pres st0 (vs.foldl (tryVesselR E t) (st, pr)).1 ∧
      stCorr (vs.foldl (tryVesselR E t) (st, pr)).1
        (vs.foldl (tryVesselR E t) (st, pr)).2
        ((vs.map (derefVessel st0)).foldl (tryVessel E t) ps) := by
  intro vs
  induction vs with
  | nil =>
      intro st pr ps hvs hpres hcorr
      exact ⟨hpres, hcorr⟩
  | cons v vs ih =>
      intro st pr ps hvs hpres hcorr
      rw [List.map_cons, List.foldl_cons, List.foldl_cons]
      have hv : v.schedule < st.length :=
        lt_of_lt_of_le (hvs v (List.mem_cons_self _ _)) hpres.1
      obtain ⟨hp2, hc2⟩ := tryVesselR_sim E t st pr ps v hv hcorr
      have hdv : derefVessel st0 v = derefVessel st v :=
        (derefVessel_pres hpres (hvs v (List.mem_cons_self _ _))).symm
      rw [hdv]
      have hsplit : tryVesselR E t (st, pr) v =
          ((tryVesselR E t (st, pr) v).1, (tryVesselR E t (st, pr) v).2) := rfl
      rw [hsplit]
      exact ih (tryVesselR E t (st, pr) v).1 (tryVesselR E t (st, pr) v).2
        (tryVessel E t ps (derefVessel st v))
        (fun w hw => hvs w (List.mem_cons_of_mem _ hw))
        (pres_trans hpres hp2) hc2

/-- The store-level trade loop simulates the pure one. -/
theorem tradesFoldR_sim {S : Type} [Inhabited S] (E : Env S) (st0 : List S)
    (fleetR : List (VesselG Nat))
    (hfleet : ∀ v ∈ fleetR, v.schedule < st0.length) :
    ∀ (ts : List Trade) (st : List S) (pr : PassStR) (ps : PassSt S),
      Pres st0 st → stCorr st pr ps →
      Pres st0 (ts.foldl (passTradeR E fleetR) (st, pr)).1 ∧
      stCorr (ts.foldl (passTradeR E fleetR) (st, pr)).1
        (ts.foldl (passTradeR E fleetR) (st, pr)).2
        (ts.foldl (passTrade E (fleetR.map (derefVessel st0))) ps) := by
  intro ts
  induction ts with
  | nil =>
      intro st pr ps hpres hcorr
      exact ⟨hpres, hcorr⟩
  | cons t ts ih =>
      intro st pr ps hpres hcorr
      rw [List.foldl_cons, List.foldl_cons]
      obtain ⟨hp2, hc2⟩ := fleetFoldR_sim E t st0 fleetR st pr ps hfleet
        hpres hcorr
      have hsplitp : passTradeR E fleetR (st, pr) t =
          ((passTradeR E fleetR (st, pr) t).1,
           (passTradeR E fleetR (st, pr) t).2) := rfl
      rw [hsplitp]
      exact ih (passTradeR E fleetR (st, pr) t).1
        (passTradeR E fleetR (st, pr) t).2
        (passTrade E (fleetR.map (derefVessel st0)) ps t) hp2 hc2

/-- The store-level pass simulates the pure pass run on the
dereferenced fleet: the initial store's cells survive and the resulting
states correspond. -/
theorem runPassR_sim {S : Type} [Inhabited S] (E : Env S) (st0 : List S)
    (fleetR : List (VesselG Nat)) (trades : List Trade)
    (hfleet : ∀ v ∈ fleetR, v.schedule < st0.length) :
    Pres st0 (runPassR E fleetR trades st0).1 ∧
    stCorr (runPassR E fleetR trades st0).1 (runPassR E fleetR trades st0).2
      (runPass E (fleetR.map (derefVessel st0)) trades) := by
  unfold runPassR runPass
  exact tradesFoldR_sim E st0 fleetR hfleet trades st0 initPassStR
    (initPassSt S) (pres_refl st0)
    ⟨rfl, ⟨rfl, fun kr h => absurd h (List.not_mem_nil kr)⟩, rfl, rfl, rfl⟩

/-- Proposal-level correspondence: value-level proposal = dereferenced
reference-level proposal. -/
def propCorr {S : Type} [Inhabited S] (st : List S) (pR : ScheduleProposalR)
    (pP : ScheduleProposal S) : Prop :=
  schedCorr st pR.schedules pP.schedules ∧
  pP.scheduled_trades = pR.scheduled_trades ∧
  pP.costs = pR.costs

theorem propCorr_pres {S : Type} [Inhabited S] {st st2 : List S}
    (h : Pres st st2) {a : ScheduleProposalR} {b : ScheduleProposal S}
    (hc : propCorr st a b) : propCorr st2 a b :=
  ⟨schedCorr_pres h hc.1, hc.2⟩

theorem singleInsertionPassR_sim {S : Type} [Inhabited S] (E : Env S)
    (st0 : List S) (fleetR : List (VesselG Nat)) (trades : List Trade)
    (hfleet : ∀ v ∈ fleetR, v.schedule < st0.length) :
    Pres st0 (singleInsertionPassR E fleetR trades st0).1 ∧
    propCorr (singleInsertionPassR E fleetR trades st0).1
      (singleInsertionPassR E fleetR trades st0).2
      (singleInsertionPass E (fleetR.map (derefVessel st0)) trades) := by
  obtain ⟨h1, h2⟩ := runPassR_sim E st0 fleetR trades hfleet
  exact ⟨h1, h2.2.1, h2.2.2.1, h2.2.2.2.1⟩

theorem valuesA_map {κ α β : Type} (g : α → β) (a : List (κ × α)) :
    valuesA (a.map (fun kr => (kr.1, g kr.2))) = (valuesA a).map g := by
  unfold valuesA
  rw [List.map_map, List.map_map]
  rfl

/-- Corresponding proposals score identically. -/
theorem mssScoreR_corr {S : Type} [Inhabited S] (E : Env S) (st : List S)
    (pR : ScheduleProposalR) (pP : ScheduleProposal S)
    (h : propCorr st pR pP) : mssScoreR E st pR = mssScore E pP := by
  obtain ⟨⟨hmap, _⟩, hsch, _⟩ := h
  unfold mssScoreR mssScore
  rw [hsch, hmap, valuesA_map, List.map_map]
  rfl

/-- Correspondence between the multi-start best-so-far accumulators. -/
def bestTrialCorr {S : Type} [Inhabited S] (st : List S) :
    Option (ScheduleProposalR × Int) → Option (ScheduleProposal S × Int) →
      Prop
  | none, none => True
  | some a, some b => propCorr st a.1 b.1 ∧ a.2 = b.2
  | _, _ => False

theorem bestTrialCorr_pres {S : Type} [Inhabited S] {st st2 : List S}
    (h : Pres st st2) {a : Option (ScheduleProposalR × Int)}
    {b : Option (ScheduleProposal S × Int)} (hc : bestTrialCorr st a b) :
    bestTrialCorr st2 a b := by
  cases a with
  | none =>
      cases b with
      | none => trivial
      | some q => exact absurd hc (by simp [bestTrialCorr])
  | some p =>
      cases b with
      | none => exact absurd hc (by simp [bestTrialCorr])
      | some q => exact ⟨propCorr_pres h hc.1, hc.2⟩

/-- The store-level multi-start trial loop simulates the pure selection
fold over the trial results computed from the initial schedule
values. -/
theorem trialFoldR_sim {S : Type} [Inhabited S] (E : Env S) (st0 : List S)
    (fleetR : List (VesselG Nat)) (shuffles : Nat → List Trade)
    (hfleet : ∀ v ∈ fleetR, v.schedule < st0.length) :
    ∀ (is : List Nat) (st : List S) (accR : Option (ScheduleProposalR × Int))
      (accP : Option (ScheduleProposal S × Int)),
      Pres st0 st → bestTrialCorr st accR accP →
      Pres st0 (is.foldl (trialStepR E fleetR shuffles) (st, accR)).1 ∧
      bestTrialCorr (is.foldl (trialStepR E fleetR shuffles) (st, accR)).1
        (is.foldl (trialStepR E fleetR shuffles) (st, accR)).2
        (is.foldl (fun acc i => selStep (mssScore E) acc
          (singleInsertionPass E (fleetR.map (derefVessel st0)) (shuffles i)))
          accP) := by
  intro is
  induction is with
  | nil =>
      intro st accR accP hpres hcorr
      exact ⟨hpres, hcorr⟩
  | cons i is ih =>
      intro st accR accP hpres hcorr
      rw [List.foldl_cons, List.foldl_cons]
      have hfleet_st : ∀ v ∈ fleetR, v.schedule < st.length :=
        fun v hv => lt_of_lt_of_le (hfleet v hv) hpres.1
      obtain ⟨hp2, hpc⟩ := singleInsertionPassR_sim E st fleetR (shuffles i)
        hfleet_st
      have hmapfleet : fleetR.map (derefVessel st) =
          fleetR.map (derefVessel st0) :=
        List.map_congr_left fun v hv => derefVessel_pres hpres (hfleet v hv)
      rw [hmapfleet] at hpc
      have hscore : mssScoreR E (singleInsertionPassR E fleetR (shuffles i)
            st).1 (singleInsertionPassR E fleetR (shuffles i) st).2 =
          mssScore E (singleInsertionPass E (fleetR.map (derefVessel st0))
            (shuffles i)) :=
        mssScoreR_corr E _ _ _ hpc
      have hstep : ∀ accR2 accP2,
          bestTrialCorr (singleInsertionPassR E fleetR (shuffles i) st).1
            accR2 accP2 →
          trialStepR E fleetR shuffles (st, accR2) i =
            ((singleInsertionPassR E fleetR (shuffles i) st).1,
             (trialStepR E fleetR shuffles (st, accR2) i).2) ∧
          bestTrialCorr (singleInsertionPassR E fleetR (shuffles i) st).1
            (trialStepR E fleetR shuffles (st, accR2) i).2
            (selStep (mssScore E) accP2 (singleInsertionPass E
              (fleetR.map (derefVessel st0)) (shuffles i))) := by
        intro accR2 accP2 hcorr2
        cases accR2 with
        | none =>
            cases accP2 with
            | none =>
                refine ⟨rfl, ?_⟩
                simp only [trialStepR, selStep]
                exact ⟨hpc, hscore⟩
            | some q => exact absurd hcorr2 (by simp [bestTrialCorr])
        | some p =>
            cases accP2 with
            | none => exact absurd hcorr2 (by simp [bestTrialCorr])
            | some q =>
                obtain ⟨hq1, hq2⟩ := hcorr2
                simp only [trialStepR, selStep]
                obtain ⟨p1, p2⟩ := p
                obtain ⟨q1, q2⟩ := q
                simp only [] at hq1 hq2
                rw [hscore, hq2]
                by_cases hlt : mssScore E (singleInsertionPass E
                    (fleetR.map (derefVessel st0)) (shuffles i)) < q2
                · rw [if_pos hlt, if_pos hlt]
                  exact ⟨rfl, hpc, rfl⟩
                · rw [if_neg hlt, if_neg hlt]
                  exact ⟨rfl, hq1, rfl⟩
      have hcorr_st2 : bestTrialCorr (singleInsertionPassR E fleetR
          (shuffles i) st).1 accR accP := bestTrialCorr_pres hp2 hcorr
      obtain ⟨heq, hbc⟩ := hstep accR accP hcorr_st2
      rw [heq]
      exact ih (singleInsertionPassR E fleetR (shuffles i) st).1
        (trialStepR E fleetR shuffles (st, accR) i).2
        (selStep (mssScore E) accP (singleInsertionPass E
          (fleetR.map (derefVessel st0)) (shuffles i)))
        (pres_trans hpres hp2) hbc

/-- Result-level correspondence for the optional returned proposal. -/
def optPropCorr {S : Type} [Inhabited S] (st : List S) :
    Option ScheduleProposalR → Option (ScheduleProposal S) → Prop
  | none, none => True
  | some a, some b => propCorr st a b
  | _, _ => False

/-- Claim C6: the store-level estimation path (multi-start over the
insertion pass, all trials sharing one heap) leaves every cell that
existed before the call unchanged — in particular every vessel's real
committed Schedule cell, because every candidate is built on freshly
allocated copies — and its result, dereferenced, equals the pure
value-semantics multi-start computed from the initial schedule values
alone, so no trial observes or mutates another trial's working
state. -/
theorem c6_estimation_frame_and_independence {S : Type} [Inhabited S]
    (E : Env S) (st0 : List S) (fleetR : List (VesselG Nat)) (kmax : Nat)
    (trades : List Trade) (shuffles : Nat → List Trade)
    (hfleet : ∀ v ∈ fleetR, v.schedule < st0.length) :
    (∀ i, i < st0.length →
      (preAuctionR E fleetR kmax trades shuffles st0).1.get? i = st0.get? i) ∧
    (∀ v ∈ fleetR,
      sread (preAuctionR E fleetR kmax trades shuffles st0).1 v.schedule =
        sread st0 v.schedule) ∧
    optPropCorr (preAuctionR E fleetR kmax trades shuffles st0).1
      (preAuctionR E fleetR kmax trades shuffles st0).2
      (preAuction E (fleetR.map (derefVessel st0)) kmax trades shuffles) := by
  obtain ⟨hP, hB⟩ := trialFoldR_sim E st0 fleetR shuffles hfleet
    (List.range (adaptiveShuffleCount kmax trades.length)) st0 none none
    (pres_refl st0) trivial
  simp only [preAuctionR]
  refine ⟨hP.2, fun v hv => sread_pres hP (hfleet v hv), ?_⟩
  have hpa : preAuction E (fleetR.map (derefVessel st0)) kmax trades shuffles
      = ((List.range (adaptiveShuffleCount kmax trades.length)).foldl
        (fun acc i => selStep (mssScore E) acc (singleInsertionPass E
          (fleetR.map (derefVessel st0)) (shuffles i))) none).map Prod.fst :=
    by
    rw [preAuction_eq_fold]
    unfold trialResults
    rw [List.foldl_map]
  rw [hpa]
  cases hsf : ((List.range (adaptiveShuffleCount kmax trades.length)).foldl
      (trialStepR E fleetR shuffles) (st0, none)).2 with
  | none =>
      cases hpf : (List.range (adaptiveShuffleCount kmax
          trades.length)).foldl (fun acc i => selStep (mssScore E) acc
            (singleInsertionPass E (fleetR.map (derefVessel st0))
              (shuffles i))) none with
      | none => trivial
      | some q =>
          rw [hsf, hpf] at hB
          exact absurd hB (by simp [bestTrialCorr])
  | some p =>
      cases hpf : (List.range (adaptiveShuffleCount kmax
          trades.length)).foldl (fun acc i => selStep (mssScore E) acc
            (singleInsertionPass E (fleetR.map (derefVessel st0))
              (shuffles i))) none with
      | none =>
          rw [hsf, hpf] at hB
          exact absurd hB (by simp [bestTrialCorr])
      | some q =>
          rw [hsf, hpf] at hB
          exact hB.1

/-- A store-level vessel for the concrete witness environment. -/
def mkVesselR (i loc r : Nat) : VesselG Nat :=
  { vid := i, location := loc, speed := 1, schedule := r,
    get_travel_time := fun d => d,
    get_ballast_consumption := fun t _ => t,
    get_loading_time := fun _ _ => 1,
    get_loading_consumption := fun t => t,
    get_laden_consumption := fun t _ => t }

def st0A : List (List Trade) := [[], []]

def fleetRA : List (VesselG Nat) := [mkVesselR 1 0 0, mkVesselR 2 0 1]

theorem c6_estimation_frame_and_independence_witness :
    (preAuctionR envA fleetRA MAX_SHUFFLES [tA] (fun _ => [tA])
      st0A).1.get? 0 = st0A.get? 0 :=
  (c6_estimation_frame_and_independence envA st0A fleetRA MAX_SHUFFLES [tA]
    (fun _ => [tA]) (by decide)).1 0 (by decide)
